import Mathlib

/-!
Verification development for the ZipUp archiver core (gui.py and arc_utils.py).
Paths and entry names are modelled as `String` (Python `str` is a sequence of
code points, as is the character list underlying a Lean `String`); byte values
are modelled as `Nat` (each Python byte satisfies `b < 256`, and the only
arithmetic applied to them, bitwise exclusive-or with a key below 256, keeps
them below 256, so no explicit truncation is needed).  String helpers are
defined structurally on the underlying character lists so that every predicate
evaluates by kernel reduction.  `str.lower` is modelled on ASCII letters, which
is exact for the extension checks and the file names the claims quantify over.
-/

set_option maxRecDepth 10000
set_option linter.unusedVariables false

namespace ZipUp

/-! ### String machinery (models of the Python `str` operations used) -/

/-- Model of `str.lower` for one character (ASCII range, which is what the
extension checks and sort keys in the source rely on). -/
def lowerChar (c : Char) : Char :=
  if 65 ≤ c.toNat ∧ c.toNat ≤ 90 then Char.ofNat (c.toNat + 32) else c

/-- Model of `str.lower`. -/
def lowerStr (s : String) : String := ⟨s.data.map lowerChar⟩

/-- Character-list version of `str.startswith`. -/
def isPrefOf : List Char → List Char → Bool
  | [], _ => true
  | _ :: _, [] => false
  | a :: as, b :: bs => a == b && isPrefOf as bs

/-- Model of `s.startswith(pat)`. -/
def strStarts (s pat : String) : Bool := isPrefOf pat.data s.data

/-- Model of `s.endswith(pat)`. -/
def strEnds (s pat : String) : Bool := isPrefOf pat.data.reverse s.data.reverse

/-- Model of the Python slice `s[n:]` (by code points). -/
def strDrop (s : String) (n : Nat) : String := ⟨s.data.drop n⟩

/-- Model of `len(s)` (number of code points). -/
def strLen (s : String) : Nat := s.data.length

/-- Model of `c in s` for a single character `c`. -/
def strHasChar (s : String) (c : Char) : Bool := s.data.any (· == c)

/-- Model of `s.split('/', 1)[0]`: the segment before the first slash. -/
def strTakeUntilSlash (s : String) : String := ⟨s.data.takeWhile (fun c => !(c == '/'))⟩

/-- String concatenation on the underlying character lists. -/
def strApp (a b : String) : String := ⟨a.data ++ b.data⟩

/-- Character-list version of the Python substring test `needle in hay`. -/
def isInf : List Char → List Char → Bool
  | needle, [] => isPrefOf needle []
  | needle, h :: t => isPrefOf needle (h :: t) || isInf needle t

/-! ### StreamCipherCodec: `arc_utils.XORFile` -/

/-- `ARC_KEY = 0x5A` from arc_utils.py. -/
def ARC_KEY : Nat := 0x5A

/-- The byte transform applied by `XORFile` to a buffer: XOR every byte with
the key (`bytes(b ^ self._key for b in data)`). -/
def xorBytes (key : Nat) (l : List Nat) : List Nat := l.map (fun b => b ^^^ key)

/-- The underlying seekable byte stream wrapped by `XORFile` (the plain file). -/
structure ByteStream where
  buf : List Nat
  pos : Nat
  deriving DecidableEq, Repr

/-- `seek(p)` (SEEK_SET), passed through unchanged by `XORFile.seek`. -/
def ByteStream.seekTo (s : ByteStream) (p : Nat) : ByteStream := { s with pos := p }

/-- `XORFile.read(n)`: read `n` raw bytes from the base stream, XOR each with
the key.  Returns the transformed bytes and the advanced stream. -/
def xfRead (key : Nat) (s : ByteStream) (n : Nat) : List Nat × ByteStream :=
  let raw := (s.buf.drop s.pos).take n
  (xorBytes key raw, { s with pos := s.pos + raw.length })

/-- `XORFile.write(data)`: XOR each byte with the key, then write to the base
stream at the current position. -/
def xfWrite (key : Nat) (s : ByteStream) (data : List Nat) : ByteStream :=
  { buf := s.buf.take s.pos ++ xorBytes key data ++ s.buf.drop (s.pos + data.length),
    pos := s.pos + data.length }

/-! ### ContainerCodec: `arc_utils.compression_for` and `arc_utils.open_zip` -/

/-- The two compression constants the source can select
(`zipfile.ZIP_ZSTD` and `zipfile.ZIP_DEFLATED`). -/
inductive Compression
  | zstd
  | deflated
  deriving DecidableEq, Repr

/-- `compression_for(path)`; `zstdAvail` models `ZIP_ZSTD is not None`
(whether the runtime `zipfile` module exposes zstandard). -/
def compression_for (zstdAvail : Bool) (path : String) : Compression :=
  if strEnds (lowerStr path) ".arc" && zstdAvail then Compression.zstd
  else Compression.deflated

/-- The stream handed to `zipfile.ZipFile` by `open_zip`. -/
inductive FileObj
  | raw
  | xorWrapped (key : Nat)
  deriving DecidableEq, Repr

/-- The stream wrapping decision in `open_zip`: wrap the base file in
`XORFile` exactly when `path.lower().endswith('.arc')`. -/
def open_zip_fileobj (path : String) : FileObj :=
  if strEnds (lowerStr path) ".arc" then FileObj.xorWrapped ARC_KEY else FileObj.raw

/-- The `compresslevel` keyword passed by `open_zip`
(`kwargs["compresslevel"] = 1` exactly when the chosen method is zstd). -/
def open_zip_compresslevel (zstdAvail : Bool) (path : String) : Option Nat :=
  if compression_for zstdAvail path = Compression.zstd then some 1 else none

/-! ### Theorems for the cipher (C5) and the codec selection (C8) -/

/-- C5: the XOR stream-cipher transform is an involution (applying it twice
returns the original byte sequence, so encoding and decoding coincide), it is
position independent (transforming the pieces of any partition of a buffer and
concatenating equals transforming the whole buffer), and bytes written through
`XORFile.write` and read back through `XORFile.read` at the same position
round-trip. -/
theorem xor_cipher_involution :
    (∀ (key : Nat) (b : List Nat), xorBytes key (xorBytes key b) = b)
    ∧ (∀ (key : Nat) (parts : List (List Nat)),
        xorBytes key parts.flatten = (parts.map (xorBytes key)).flatten)
    ∧ (∀ (key : Nat) (s : ByteStream) (data : List Nat) (p : Nat),
        p ≤ s.buf.length →
        (xfRead key ((xfWrite key (s.seekTo p) data).seekTo p) data.length).1 = data) := by
  have hinv : ∀ (key : Nat) (b : List Nat), xorBytes key (xorBytes key b) = b := by
    intro key b
    induction b with
    | nil => rfl
    | cons x xs ih =>
      simp only [xorBytes, List.map_cons, List.map_map] at *
      simp only [Function.comp, Nat.xor_assoc, Nat.xor_self, Nat.xor_zero] at *
      exact congrArg (x :: ·) ih
  refine ⟨hinv, ?_, ?_⟩
  · intro key parts
    induction parts with
    | nil => rfl
    | cons p ps ih =>
      simp only [List.flatten, List.map_cons, xorBytes, List.map_append]
      simpa [xorBytes] using congrArg (p.map (fun b => b ^^^ key) ++ ·) ih
  · intro key s data p hp
    simp only [xfRead, xfWrite, ByteStream.seekTo]
    have hlen : (s.buf.take p).length = p := by
      simpa using Nat.min_eq_left hp
    have hxlen : (xorBytes key data).length = data.length := by
      simp [xorBytes]
    have hdrop :
        ((s.buf.take p ++ xorBytes key data ++ s.buf.drop (p + data.length)).drop p)
          = xorBytes key data ++ s.buf.drop (p + data.length) := by
      rw [List.append_assoc]
      calc (s.buf.take p ++ (xorBytes key data ++ s.buf.drop (p + data.length))).drop p
          = (s.buf.take p ++ (xorBytes key data ++ s.buf.drop (p + data.length))).drop
              (s.buf.take p).length := by rw [hlen]
        _ = xorBytes key data ++ s.buf.drop (p + data.length) := List.drop_left _ _
    have htake :
        ((xorBytes key data ++ s.buf.drop (p + data.length)).take data.length)
          = xorBytes key data := by
      calc (xorBytes key data ++ s.buf.drop (p + data.length)).take data.length
          = (xorBytes key data ++ s.buf.drop (p + data.length)).take
              (xorBytes key data).length := by rw [hxlen]
        _ = xorBytes key data := List.take_left _ _
    simp only [hdrop, htake]
    exact hinv key data

/-- Witness for the round-trip part of `xor_cipher_involution` at a concrete
stream, position and payload. -/
theorem xor_cipher_involution_inst :
    (xfRead ARC_KEY ((xfWrite ARC_KEY ((⟨[0, 0, 0], 0⟩ : ByteStream).seekTo 1)
      [7, 200]).seekTo 1) 2).1 = [7, 200] :=
  xor_cipher_involution.2.2 ARC_KEY ⟨[0, 0, 0], 0⟩ [7, 200] 1 (by decide)

/-- C8: `open_zip` wraps the raw stream in the XOR codec exactly when the
path's extension is `.arc` (case-insensitively), and otherwise passes the raw
stream through; the compression method is zstd at level 1 exactly when the path
ends in `.arc` and the runtime provides zstd, and deflate (with no explicit
level) in every other case. -/
theorem open_zip_codec_selection (path : String) (zstdAvail : Bool) :
    (open_zip_fileobj path = FileObj.xorWrapped ARC_KEY
        ↔ strEnds (lowerStr path) ".arc" = true)
    ∧ (open_zip_fileobj path = FileObj.raw ↔ strEnds (lowerStr path) ".arc" = false)
    ∧ ((compression_for zstdAvail path = Compression.zstd
          ∧ open_zip_compresslevel zstdAvail path = some 1)
        ↔ (strEnds (lowerStr path) ".arc" = true ∧ zstdAvail = true))
    ∧ ((strEnds (lowerStr path) ".arc" = false ∨ zstdAvail = false) →
        compression_for zstdAvail path = Compression.deflated
          ∧ open_zip_compresslevel zstdAvail path = none) := by
  cases harc : strEnds (lowerStr path) ".arc" <;> cases hav : zstdAvail <;>
    simp [open_zip_fileobj, compression_for, open_zip_compresslevel, harc, hav]

/-- Witness for `open_zip_codec_selection` at concrete paths: an `.ARC` path is
wrapped and gets zstd level 1 when available, a `.zip` path stays raw on
deflate. -/
theorem open_zip_codec_selection_inst :
    open_zip_fileobj "A.ARC" = FileObj.xorWrapped ARC_KEY
    ∧ compression_for true "A.ARC" = Compression.zstd
    ∧ open_zip_fileobj "b.zip" = FileObj.raw
    ∧ compression_for true "b.zip" = Compression.deflated := by
  refine ⟨(open_zip_codec_selection "A.ARC" true).1.mpr (by decide), ?_, ?_, ?_⟩
  · exact (((open_zip_codec_selection "A.ARC" true).2.2.1.mpr (by decide))).1
  · exact (open_zip_codec_selection "b.zip" true).2.1.mpr (by decide)
  · exact ((open_zip_codec_selection "b.zip" true).2.2.2 (by decide)).1

end ZipUp

namespace ZipUp

/-! ### Archive data model -/

/-- One entry of a ZIP container: its stored path, its payload bytes, and its
stored modification time (`date_time`, abstracted to a single number). -/
structure ZEntry where
  path : String
  data : List Nat
  mtime : Nat
  deriving DecidableEq, Repr

/-- A ZIP container value: the entries in written order plus the container's
native comment field (UTF-8 bytes). -/
structure ZipArchive where
  entries : List ZEntry
  comment : List Nat
  deriving DecidableEq, Repr

/-- One member of a TAR container: its header (name, kind, size via the data
list, mtime) and payload.  `isFile` models `member.isfile()`; a member with
`isFile = false` models a directory member (`member.isdir()` true). -/
structure TMember where
  name : String
  isFile : Bool
  data : List Nat
  mtime : Nat
  deriving DecidableEq, Repr

/-- The reserved comment-sentinel entry path. -/
def sentinelName : String := ".archivator_comment.txt"

/-- `archive.read(name)` on a ZIP: zipfile resolves a name through its
name-to-info map, in which the last entry with a given name wins. -/
def zipReadByName (es : List ZEntry) (name : String) : List Nat :=
  match es.reverse.find? (fun e => e.path == name) with
  | some e => e.data
  | none => []

/-! ### delete_selected_file -/

/-- `delete_selected_file`, ZIP branch: keep every entry whose path is not in
the selected list, then rewrite the container with `writestr`, which stores a
directory entry as empty bytes and stamps every rewritten entry with the
current time `now` (a bare string filename gives a fresh `ZipInfo`). -/
def delete_selected_file_zip (now : Nat) (sel : List String) (es : List ZEntry) :
    List ZEntry :=
  (es.filter (fun e => !(sel.contains e.path))).map (fun e =>
    if strEnds e.path "/" then ⟨e.path, [], now⟩
    else ⟨e.path, zipReadByName es e.path, now⟩)

/-- `delete_selected_file`, TAR branch: re-add every member whose name is not
selected, via `addfile` with the original `TarInfo` (and original payload for
files), so surviving members are unchanged. -/
def delete_selected_file_tar (sel : List String) (ms : List TMember) : List TMember :=
  ms.filter (fun m => !(sel.contains m.name))

/-! ### on_rename_file -/

/-- The per-entry path transform of `on_rename_file`: for a directory rename
(`is_dir`), replace the `old_full` head of any path starting with it by
`new_full`; for a file rename, replace exactly the path equal to `old_full`. -/
def renameName (oldF newF : String) (isDir : Bool) (p : String) : String :=
  if isDir then
    if strStarts p oldF then strApp newF (strDrop p (strLen oldF)) else p
  else
    if p == oldF then newF else p

/-- `on_rename_file`, ZIP write phase: every entry is rewritten under its
(possibly substituted) name with `writestr` — original payload looked up from
the old archive for non-directory entries, empty bytes for directory entries,
and the rewrite time `now` as the new stored time. -/
def on_rename_file_zip (now : Nat) (es : List ZEntry) (oldF newF : String)
    (isDir : Bool) : List ZEntry :=
  es.map (fun e =>
    if strEnds e.path "/" then ⟨renameName oldF newF isDir e.path, [], now⟩
    else ⟨renameName oldF newF isDir e.path, zipReadByName es e.path, now⟩)

/-- `on_rename_file`, TAR branch: each member is re-added via `addfile` with
its original `TarInfo` whose `name` field was substituted in place. -/
def on_rename_file_tar (ms : List TMember) (oldF newF : String) (isDir : Bool) :
    List TMember :=
  ms.map (fun m => { m with name := renameName oldF newF isDir m.name })

end ZipUp

namespace ZipUp

/-- With distinct entry paths (the archive data-model invariant), reading an
entry by name from a ZIP returns that entry's payload. -/
theorem zipReadByName_of_nodup {es : List ZEntry}
    (hnd : (es.map (fun e => e.path)).Nodup) {e : ZEntry} (he : e ∈ es) :
    zipReadByName es e.path = e.data := by
  unfold zipReadByName
  cases hfind : es.reverse.find? (fun x => x.path == e.path) with
  | none =>
    exfalso
    have := List.find?_eq_none.mp hfind e (List.mem_reverse.mpr he)
    simp at this
  | some x =>
    have hx : x ∈ es := List.mem_reverse.mp (List.mem_of_find?_eq_some hfind)
    have hpx : x.path = e.path := by
      simpa using List.find?_some hfind
    have hxe : x = e := List.inj_on_of_nodup_map hnd hx he hpx
    rw [hxe]

/-- C9: delete is non-recursive and exact: it removes precisely the entries
whose path string-equals a selected path, every other entry keeps its path and
payload (ZIP branch, under the archive invariants that paths are distinct and
directory-marker entries carry no bytes), and on TAR the surviving members are
kept verbatim.  Deleting a directory row therefore removes only the marker
entry itself and leaves entries beneath that directory in place. -/
theorem delete_exact_match
    (now : Nat) (sel : List String) (es : List ZEntry)
    (hnd : (es.map (fun e => e.path)).Nodup)
    (hdirs : ∀ e ∈ es, strEnds e.path "/" = true → e.data = [])
    (ms : List TMember) :
    (delete_selected_file_zip now sel es).map (fun e => (e.path, e.data))
      = (es.filter (fun e => !(sel.contains e.path))).map (fun e => (e.path, e.data))
    ∧ delete_selected_file_tar sel ms = ms.filter (fun m => !(sel.contains m.name)) := by
  constructor
  · unfold delete_selected_file_zip
    rw [List.map_map]
    apply List.map_congr_left
    intro e he
    have he' : e ∈ es := (List.mem_filter.mp he).1
    by_cases hd : strEnds e.path "/" = true
    · simp [Function.comp, hd, hdirs e he' hd]
    · have hd' : strEnds e.path "/" = false := by simpa using hd
      simp [Function.comp, hd', zipReadByName_of_nodup hnd he']
  · rfl

/-- Witness for `delete_exact_match`: deleting the directory row `"a/"` keeps
`"a/b.txt"` with its original bytes. -/
theorem delete_exact_match_inst :
    (delete_selected_file_zip 9 ["a/"] [⟨"a/", [], 0⟩, ⟨"a/b.txt", [5], 1⟩]).map
      (fun e => (e.path, e.data)) = [("a/b.txt", [5])] := by
  have h := (delete_exact_match 9 ["a/"] [⟨"a/", [], 0⟩, ⟨"a/b.txt", [5], 1⟩]
      (by decide) (by decide) []).1
  exact h.trans (by decide)

/-- C10: after a ZIP delete or rename every surviving entry's stored time is
the rewrite time `now` (so an original time differing from `now` is not
preserved), while the TAR delete re-adds surviving members verbatim and the
TAR rename changes nothing but the `name` header field. -/
theorem rewrite_metadata_effects
    (now : Nat) (sel : List String) (es : List ZEntry) (oldF newF : String)
    (isDir : Bool) (ms : List TMember) :
    (∀ e ∈ delete_selected_file_zip now sel es, e.mtime = now)
    ∧ (∀ e ∈ on_rename_file_zip now es oldF newF isDir, e.mtime = now)
    ∧ (∀ m ∈ delete_selected_file_tar sel ms, m ∈ ms)
    ∧ (on_rename_file_tar ms oldF newF isDir).map (fun m => (m.isFile, m.data, m.mtime))
        = ms.map (fun m => (m.isFile, m.data, m.mtime)) := by
  refine ⟨?_, ?_, ?_, ?_⟩
  · intro e he
    unfold delete_selected_file_zip at he
    rcases List.mem_map.mp he with ⟨x, _, rfl⟩
    by_cases hd : strEnds x.path "/" = true <;> simp [hd]
  · intro e he
    unfold on_rename_file_zip at he
    rcases List.mem_map.mp he with ⟨x, _, rfl⟩
    by_cases hd : strEnds x.path "/" = true <;> simp [hd]
  · intro m hm
    exact (List.mem_filter.mp hm).1
  · unfold on_rename_file_tar
    rw [List.map_map]
    rfl

/-- Witness for `rewrite_metadata_effects`: concrete survivors of a ZIP delete
carry the rewrite time, and a TAR survivor is the original member. -/
theorem rewrite_metadata_effects_inst :
    (⟨"a.txt", [1], 9⟩ : ZEntry).mtime = 9
    ∧ (⟨"t", true, [2], 7⟩ : TMember) ∈ [(⟨"t", true, [2], 7⟩ : TMember)] := by
  have h := rewrite_metadata_effects 9 ["x"] [⟨"a.txt", [1], 3⟩] "o" "n" false
      [⟨"t", true, [2], 7⟩]
  exact ⟨h.1 ⟨"a.txt", [1], 9⟩ (by decide), h.2.2.1 ⟨"t", true, [2], 7⟩ (by decide)⟩

/-- C3: renaming a directory `old` (a path ending in `/`) to `new` substitutes
the prefix on every entry whose path starts with `old`, leaves every other
path unchanged, and keeps the payload of every rewritten non-directory entry —
on the ZIP path (under distinct entry paths) and on the TAR path, where all
other header fields are preserved as well. -/
theorem rename_directory_prefix_substitution
    (now : Nat) (es : List ZEntry) (oldF newF : String)
    (hdir : strEnds oldF "/" = true)
    (hnd : (es.map (fun e => e.path)).Nodup)
    (ms : List TMember) :
    on_rename_file_zip now es oldF newF true
      = es.map (fun e =>
          ⟨if strStarts e.path oldF then strApp newF (strDrop e.path (strLen oldF)) else e.path,
           if strEnds e.path "/" then [] else e.data, now⟩)
    ∧ on_rename_file_tar ms oldF newF true
      = ms.map (fun m =>
          { m with name := if strStarts m.name oldF
              then strApp newF (strDrop m.name (strLen oldF)) else m.name }) := by
  constructor
  · unfold on_rename_file_zip
    apply List.map_congr_left
    intro e he
    by_cases hd : strEnds e.path "/" = true
    · simp [hd, renameName]
    · have hd' : strEnds e.path "/" = false := by simpa using hd
      simp [hd', renameName, zipReadByName_of_nodup hnd he]
  · unfold on_rename_file_tar
    apply List.map_congr_left
    intro m _
    simp [renameName]

/-- Witness for `rename_directory_prefix_substitution`: renaming folder
`"a/"` to `"z/"` over `{"a/", "a/b.txt"}` yields `{"z/", "z/b.txt"}` with
`b.txt`'s bytes unchanged. -/
theorem rename_directory_prefix_substitution_inst :
    on_rename_file_zip 9 [⟨"a/", [], 1⟩, ⟨"a/b.txt", [7, 8], 2⟩] "a/" "z/" true
      = [⟨"z/", [], 9⟩, ⟨"z/b.txt", [7, 8], 9⟩] := by
  have h := (rename_directory_prefix_substitution 9
      [⟨"a/", [], 1⟩, ⟨"a/b.txt", [7, 8], 2⟩] "a/" "z/" (by decide) (by decide) []).1
  exact h.trans (by decide)

end ZipUp

namespace ZipUp

/-! ### DirectoryProjector: `update_file_list` -/

/-- One display row of the file list: `(display name, size label, modification
time or none, folder flag)`.  The folder flag models the `is_dir` component of
the dict value built by `update_file_list` (the synthetic up-row, inserted
outside the dict, is tagged as a non-file row here). -/
structure Row where
  name : String
  size : String
  mtime : Option Nat
  isDir : Bool
  deriving DecidableEq, Repr

/-- The synthetic `..` row inserted when the current folder is non-empty. -/
def upRow : Row := ⟨"..", "", none, true⟩

/-- Code-point lexicographic comparison of character lists, the order Python
uses on `str`. -/
def charListLe : List Char → List Char → Bool
  | [], _ => true
  | _ :: _, [] => false
  | a :: as, b :: bs =>
    if a.toNat < b.toNat then true
    else if b.toNat < a.toNat then false
    else charListLe as bs

/-- The sort key of `update_file_list`:
`key=lambda x: (not x[1][2], x[0].lower())` — folders before files, then
case-insensitive lexicographic on the display name. -/
def rowKeyLe (a b : Row) : Bool :=
  if a.isDir == b.isDir then charListLe (lowerStr a.name).data (lowerStr b.name).data
  else a.isDir

/-- `rowKeyLe` as a decidable relation for sorting. -/
def rowLeP (a b : Row) : Prop := rowKeyLe a b = true

instance : DecidableRel rowLeP := fun a b => inferInstanceAs (Decidable (_ = true))

/-- Python dict assignment `entries[top] = v`: replace the value at an existing
key in place, else append at the end (dicts preserve insertion order). -/
def updateAssoc (rows : List Row) (r : Row) : List Row :=
  if rows.any (fun x => x.name == r.name) then
    rows.map (fun x => if x.name == r.name then r else x)
  else rows ++ [r]

/-- One step of the `update_file_list` entry loop, ZIP branch: keep entries
under the current folder, strip the prefix, skip empty relatives, make a file
row from a slash-free relative and a deduplicated folder row otherwise. -/
def addEntryRow (cur : String) (rows : List Row) (e : ZEntry) : List Row :=
  if strStarts e.path cur then
    if strDrop e.path (strLen cur) == "" then rows
    else if strHasChar (strDrop e.path (strLen cur)) '/' then
      if rows.any (fun x =>
          x.name == strApp (strTakeUntilSlash (strDrop e.path (strLen cur))) "/") then rows
      else rows ++ [⟨strApp (strTakeUntilSlash (strDrop e.path (strLen cur))) "/", "", none, true⟩]
    else
      updateAssoc rows ⟨strDrop e.path (strLen cur), toString e.data.length, some e.mtime, false⟩
  else rows

/-- One step of the `update_file_list` member loop, TAR branch: as the ZIP
branch, except a slash-free relative yields a file row only for a non-directory
member (`len(parts) == 1 and not fi.isdir()`), and a folder row otherwise. -/
def addMemberRow (cur : String) (rows : List Row) (m : TMember) : List Row :=
  if strStarts m.name cur then
    if strDrop m.name (strLen cur) == "" then rows
    else if !(strHasChar (strDrop m.name (strLen cur)) '/') && m.isFile then
      updateAssoc rows ⟨strDrop m.name (strLen cur), toString m.data.length, some m.mtime, false⟩
    else
      if rows.any (fun x =>
          x.name == strApp (strTakeUntilSlash (strDrop m.name (strLen cur))) "/") then rows
      else rows ++ [⟨strApp (strTakeUntilSlash (strDrop m.name (strLen cur))) "/", "", none, true⟩]
  else rows

/-- The dict of direct children accumulated by `update_file_list` (ZIP). -/
def childRows (cur : String) (es : List ZEntry) : List Row :=
  es.foldl (addEntryRow cur) []

/-- The dict of direct children accumulated by `update_file_list` (TAR). -/
def tarChildRows (cur : String) (ms : List TMember) : List Row :=
  ms.foldl (addMemberRow cur) []

/-- `update_file_list`, ZIP branch: the row sequence inserted into the list
control — the synthetic up-row when the current folder is non-empty, then the
children sorted with Python's stable `sorted` under the folders-first,
case-insensitive-name key (a stable sort of a list under a total transitive
comparison is computed here by stable insertion sort). -/
def update_file_list_zip (cur : String) (es : List ZEntry) : List Row :=
  (if cur == "" then [] else [upRow]) ++ List.insertionSort rowLeP (childRows cur es)

/-- `update_file_list`, TAR branch. -/
def update_file_list_tar (cur : String) (ms : List TMember) : List Row :=
  (if cur == "" then [] else [upRow]) ++ List.insertionSort rowLeP (tarChildRows cur ms)

/-! ### search_in_archive, on_extract_all, archive comments -/

/-- `search_in_archive`, ZIP branch: one row per entry whose lowercased full
path contains the (already lowercased) search text; display name is the full
path with the current folder sliced off when a folder is open. -/
def search_in_archive_zip (cur searchText : String) (es : List ZEntry) : List Row :=
  es.filterMap (fun e =>
    if isInf searchText.data (lowerStr e.path).data then
      some ⟨if cur == "" then e.path else strDrop e.path (strLen cur),
            toString e.data.length, some e.mtime, false⟩
    else none)

/-- `search_in_archive`, TAR branch. -/
def search_in_archive_tar (cur searchText : String) (ms : List TMember) : List Row :=
  ms.filterMap (fun m =>
    if isInf searchText.data (lowerStr m.name).data then
      some ⟨if cur == "" then m.name else strDrop m.name (strLen cur),
            toString m.data.length, some m.mtime, false⟩
    else none)

/-- `on_extract_all`, ZIP branch: the entries materialized to disk — every
entry except the comment sentinel. -/
def on_extract_all_zip (es : List ZEntry) : List ZEntry :=
  es.filter (fun e => !(e.path == sentinelName))

/-- `on_extract_all`, TAR branch. -/
def on_extract_all_tar (ms : List TMember) : List TMember :=
  ms.filter (fun m => !(m.name == sentinelName))

/-- `read_archive_comment`, ZIP branch: the container's native comment field
(an empty field reads back as the empty text). -/
def read_archive_comment_zip (arc : ZipArchive) : List Nat := arc.comment

/-- `ZIP_MAX_COMMENT = 65535`: the largest comment a ZIP end-of-central-dir
record can carry (its length field is 16 bits). -/
def ZIP_MAX_COMMENT : Nat := 65535

/-- `save_archive_comment`, ZIP branch: assign the container's native comment
field (`archive.comment = comment.encode('utf-8')`); the `ZipFile.comment`
setter truncates the assigned bytes to `ZIP_MAX_COMMENT`.  Entries are
untouched. -/
def save_archive_comment_zip (arc : ZipArchive) (c : List Nat) : ZipArchive :=
  { arc with comment := c.take ZIP_MAX_COMMENT }

/-- `save_archive_comment`, TAR branch: rewrite the archive keeping every
member other than the sentinel verbatim, then append a fresh sentinel member
holding the comment bytes (a fresh `TarInfo` has zero mtime). -/
def save_archive_comment_tar (ms : List TMember) (c : List Nat) : List TMember :=
  ms.filter (fun m => !(m.name == sentinelName)) ++ [⟨sentinelName, true, c, 0⟩]

/-- `read_archive_comment`, TAR branch: `getmember` resolves a name to its
last occurrence; a non-file sentinel (no extractable payload) reads as empty. -/
def read_archive_comment_tar (ms : List TMember) : List Nat :=
  match ms.reverse.find? (fun m => m.name == sentinelName) with
  | some m => if m.isFile then m.data else []
  | none => []

/-! ### MutationTransaction: the backing file across a rewrite -/

/-- The parsed content of one on-disk container file. -/
inductive FileData
  | zipC (arc : ZipArchive)
  | tarC (ms : List TMember)
  deriving DecidableEq, Repr

/-- The two disk slots a mutation can touch: the backing archive file and the
`archive + '.tmp'` temporary path (`none` = file absent). -/
structure DiskState where
  orig : Option FileData
  tmp : Option FileData
  deriving DecidableEq, Repr

/-- `delete_selected_file` on a ZIP-based archive as a disk transaction.  The
read phase is pure; `open_zip(name, 'w')` then truncates the backing file in
place, and the surviving entries are written one `writestr` at a time.
`failAt = some k` models the `k`-th write raising (e.g. disk full), leaving
the partially written container; `none` models success.  A freshly written
container starts with an empty native comment. -/
def zipDeleteRun (now : Nat) (sel : List String) (failAt : Option Nat)
    (d : DiskState) : DiskState :=
  match d.orig with
  | some (FileData.zipC arc) =>
    let out := delete_selected_file_zip now sel arc.entries
    let k := match failAt with | some k => k | none => out.length
    { d with orig := some (FileData.zipC ⟨out.take k, []⟩) }
  | _ => d

/-- `on_rename_file` on a ZIP-based archive as a disk transaction: after the
read phase, a target name colliding with any existing entry name aborts with
an error dialog before any output is opened; otherwise the backing file is
truncated and rewritten in place, as in `zipDeleteRun`. -/
def zipRenameRun (now : Nat) (oldF newF : String) (isDir : Bool)
    (failAt : Option Nat) (d : DiskState) : DiskState :=
  match d.orig with
  | some (FileData.zipC arc) =>
    if arc.entries.any (fun e => e.path == newF) then d
    else
      let out := on_rename_file_zip now arc.entries oldF newF isDir
      let k := match failAt with | some k => k | none => out.length
      { d with orig := some (FileData.zipC ⟨out.take k, []⟩) }
  | _ => d

/-- `delete_selected_file` on a TAR archive as a disk transaction: survivors
are written to the `.tmp` path; only on success does `os.replace` move the
temporary over the original (`failAt = some k` models a failure after `k`
members were written: the replace is skipped, the original is untouched and
the partial temporary is left on disk). -/
def tarDeleteRun (sel : List String) (failAt : Option Nat) (d : DiskState) :
    DiskState :=
  match d.orig with
  | some (FileData.tarC ms) =>
    let out := delete_selected_file_tar sel ms
    match failAt with
    | some k => { d with tmp := some (FileData.tarC (out.take k)) }
    | none => { orig := some (FileData.tarC out), tmp := none }
  | _ => d

/-- `on_rename_file` on a TAR archive as a disk transaction (no duplicate
check exists on this path). -/
def tarRenameRun (oldF newF : String) (isDir : Bool) (failAt : Option Nat)
    (d : DiskState) : DiskState :=
  match d.orig with
  | some (FileData.tarC ms) =>
    let out := on_rename_file_tar ms oldF newF isDir
    match failAt with
    | some k => { d with tmp := some (FileData.tarC (out.take k)) }
    | none => { orig := some (FileData.tarC out), tmp := none }
  | _ => d

/-- `save_archive_comment` on a TAR archive as a disk transaction (rewrite to
`.tmp`, then `os.replace` on success). -/
def tarSetCommentRun (c : List Nat) (failAt : Option Nat) (d : DiskState) :
    DiskState :=
  match d.orig with
  | some (FileData.tarC ms) =>
    let out := save_archive_comment_tar ms c
    match failAt with
    | some k => { d with tmp := some (FileData.tarC (out.take k)) }
    | none => { orig := some (FileData.tarC out), tmp := none }
  | _ => d

end ZipUp

namespace ZipUp

/-! ### Theorems about the mutation transactions (C1, C7) -/

/-- C1 counterexample: a ZIP delete whose write phase fails at the very first
`writestr` (e.g. disk full) leaves the backing file as a truncated, empty
container — the original two-entry archive is not preserved, because the ZIP
branch reopens the original path with mode `'w'` instead of writing to a
temporary file. -/
theorem zip_delete_write_failure_mutates_original :
    (zipDeleteRun 9 ["b.txt"] (some 0)
        ⟨some (FileData.zipC ⟨[⟨"a.txt", [1], 3⟩, ⟨"b.txt", [2], 4⟩], []⟩), none⟩).orig
      = some (FileData.zipC ⟨[], []⟩)
    ∧ (⟨some (FileData.zipC ⟨[⟨"a.txt", [1], 3⟩, ⟨"b.txt", [2], 4⟩], []⟩), none⟩ :
        DiskState).orig
      = some (FileData.zipC ⟨[⟨"a.txt", [1], 3⟩, ⟨"b.txt", [2], 4⟩], []⟩) :=
  ⟨by decide, rfl⟩

/-- C1 (amended): the TAR-backed delete, rename and comment-set transactions
write the new container at the temporary path and replace the original only on
success, so a failure at any step leaves the original backing file unchanged
(the partial temporary may remain on disk). -/
theorem tar_mutation_failure_preserves_original
    (sel : List String) (oldF newF : String) (isDir : Bool) (c : List Nat)
    (k : Nat) (d : DiskState) :
    (tarDeleteRun sel (some k) d).orig = d.orig
    ∧ (tarRenameRun oldF newF isDir (some k) d).orig = d.orig
    ∧ (tarSetCommentRun c (some k) d).orig = d.orig := by
  rcases d with ⟨orig, tmp⟩
  rcases orig with _ | fd
  · exact ⟨rfl, rfl, rfl⟩
  · rcases fd with arc | ms
    · exact ⟨rfl, rfl, rfl⟩
    · exact ⟨rfl, rfl, rfl⟩

/-- C7 counterexample: the TAR rename path has no duplicate-target check: a
rename whose target name equals an existing surviving member's name succeeds,
rewrites the archive, and writes both colliding members. -/
theorem tar_rename_collision_not_rejected :
    tarRenameRun "a" "b" false none
        ⟨some (FileData.tarC [⟨"a", true, [1], 0⟩, ⟨"b", true, [2], 0⟩]), none⟩
      = ⟨some (FileData.tarC [⟨"b", true, [1], 0⟩, ⟨"b", true, [2], 0⟩]), none⟩ := by
  decide

/-- C7 (amended): on the ZIP rename path, a target whose full path equals any
existing entry's path makes the operation fail with the duplicate-name error
after the read phase and before any output is opened, leaving the disk state
(hence the archive's entry set and bytes) unchanged. -/
theorem zip_rename_duplicate_check
    (now : Nat) (oldF newF : String) (isDir : Bool) (failAt : Option Nat)
    (d : DiskState) (arc : ZipArchive)
    (horig : d.orig = some (FileData.zipC arc))
    (hdup : arc.entries.any (fun e => e.path == newF) = true) :
    zipRenameRun now oldF newF isDir failAt d = d := by
  unfold zipRenameRun
  rw [horig]
  simp [hdup]

/-- Witness for `zip_rename_duplicate_check` at a concrete colliding rename. -/
theorem zip_rename_duplicate_check_inst :
    zipRenameRun 5 "a" "b" false none
        ⟨some (FileData.zipC ⟨[⟨"b", [1], 0⟩], []⟩), none⟩
      = ⟨some (FileData.zipC ⟨[⟨"b", [1], 0⟩], []⟩), none⟩ :=
  zip_rename_duplicate_check 5 "a" "b" false none _ _ rfl (by decide)

/-! ### Theorems about the comment sentinel (C2, C6) -/

/-- C2 counterexample: neither `update_file_list` nor `search_in_archive`
filters the reserved sentinel entry: a TAR archive containing
`.archivator_comment.txt` shows that path both in the directory listing at the
root and in the result rows of a filename search. -/
theorem sentinel_shown_in_listing_and_search :
    (update_file_list_tar "" [⟨sentinelName, true, [104, 105], 3⟩]).map
        (fun r => r.name) = [sentinelName]
    ∧ sentinelName ∈ (search_in_archive_tar "" ".archivator_comment.txt"
        [⟨sentinelName, true, [104, 105], 3⟩]).map (fun r => r.name) := by
  decide

/-- C2 (amended): the extract-all operation does skip the reserved sentinel
entry on both the ZIP and the TAR paths (the directory listing and the search
results do not: see the counterexample). -/
theorem on_extract_all_excludes_sentinel (es : List ZEntry) (ms : List TMember) :
    sentinelName ∉ (on_extract_all_zip es).map (fun e => e.path)
    ∧ sentinelName ∉ (on_extract_all_tar ms).map (fun m => m.name) := by
  constructor
  · intro hmem
    rcases List.mem_map.mp hmem with ⟨e, he, hpe⟩
    have hk := (List.mem_filter.mp he).2
    simp [hpe] at hk
  · intro hmem
    rcases List.mem_map.mp hmem with ⟨m, hm, hnm⟩
    have hk := (List.mem_filter.mp hm).2
    simp [hnm] at hk

/-- Witness for `on_extract_all_excludes_sentinel` on a concrete archive that
contains the sentinel. -/
theorem on_extract_all_excludes_sentinel_inst :
    sentinelName ∉ (on_extract_all_zip [⟨sentinelName, [1], 0⟩, ⟨"a.txt", [2], 1⟩]).map
      (fun e => e.path) :=
  (on_extract_all_excludes_sentinel [⟨sentinelName, [1], 0⟩, ⟨"a.txt", [2], 1⟩] []).1

/-- C6 counterexample: after setting a TAR archive comment, the directory
listing at the root shows the sentinel path (the listing does not filter it). -/
theorem set_comment_then_listing_shows_sentinel :
    sentinelName ∈ (update_file_list_tar ""
        (save_archive_comment_tar [⟨"file.txt", true, [1], 0⟩] [104, 105])).map
      (fun r => r.name) := by
  decide

/-- C6 (amended): on ZIP archives the comment is stored in the container's
native comment field, whose setter truncates the stored bytes to the
65535-byte ZIP comment cap — reading back returns the first 65535 bytes of
the text set, hence exactly the text set whenever its UTF-8 encoding fits the
cap — and the entries are untouched; on TAR archives setting a comment stores
its bytes in the sentinel entry, replacing any previous sentinel while every
other member is preserved, and reading back returns exactly the bytes set.
(The sentinel does appear in a subsequent listing: see the counterexample.) -/
theorem comment_roundtrip_and_preservation :
    (∀ (arc : ZipArchive) (c : List Nat),
      read_archive_comment_zip (save_archive_comment_zip arc c) = c.take ZIP_MAX_COMMENT)
    ∧ (∀ (arc : ZipArchive) (c : List Nat), c.length ≤ ZIP_MAX_COMMENT →
      read_archive_comment_zip (save_archive_comment_zip arc c) = c)
    ∧ (∀ (arc : ZipArchive) (c : List Nat),
      (save_archive_comment_zip arc c).entries = arc.entries)
    ∧ (∀ (ms : List TMember) (c : List Nat),
      read_archive_comment_tar (save_archive_comment_tar ms c) = c)
    ∧ (∀ (ms : List TMember) (c : List Nat),
      (save_archive_comment_tar ms c).filter (fun m => !(m.name == sentinelName))
        = ms.filter (fun m => !(m.name == sentinelName))) := by
  refine ⟨fun arc c => rfl, ?_, fun arc c => rfl, ?_, ?_⟩
  · intro arc c hc
    show c.take ZIP_MAX_COMMENT = c
    exact List.take_of_length_le hc
  · intro ms c
    unfold read_archive_comment_tar save_archive_comment_tar
    rw [List.reverse_append]
    simp [List.find?]
  · intro ms c
    unfold save_archive_comment_tar
    rw [List.filter_append]
    simp [List.filter_filter]

/-- Witness for `comment_roundtrip_and_preservation`: a short concrete ZIP
comment (within the 65535-byte cap) round-trips exactly. -/
theorem comment_roundtrip_and_preservation_inst :
    read_archive_comment_zip
      (save_archive_comment_zip ⟨[⟨"a.txt", [1], 0⟩], [7]⟩ [104, 105]) = [104, 105] :=
  comment_roundtrip_and_preservation.2.1 ⟨[⟨"a.txt", [1], 0⟩], [7]⟩ [104, 105] (by decide)

end ZipUp

namespace ZipUp

/-! ### Order lemmas for the projection sort key (C4) -/

theorem charListLe_total (l : List Char) : ∀ r, charListLe l r = true ∨ charListLe r l = true := by
  induction l with
  | nil => intro r; left; rfl
  | cons a as ih =>
    intro r
    cases r with
    | nil => right; rfl
    | cons b bs =>
      rcases Nat.lt_trichotomy a.toNat b.toNat with h | h | h
      · left; simp [charListLe, h]
      · have hab : ¬ a.toNat < b.toNat := by omega
        have hba : ¬ b.toNat < a.toNat := by omega
        rcases ih bs with hh | hh
        · left; simp [charListLe, hab, hba, hh, h]
        · right; simp [charListLe, hab, hba, hh, h]
      · right; simp [charListLe, h]

theorem charListLe_trans :
    ∀ (a b c : List Char), charListLe a b = true → charListLe b c = true →
      charListLe a c = true := by
  intro a
  induction a with
  | nil => intro b c _ _; rfl
  | cons x xs ih =>
    intro b c hab hbc
    cases b with
    | nil => simp [charListLe] at hab
    | cons y ys =>
      cases c with
      | nil => simp [charListLe] at hbc
      | cons z zs =>
        simp only [charListLe] at hab hbc ⊢
        rcases Nat.lt_trichotomy x.toNat y.toNat with h1 | h1 | h1 <;>
          rcases Nat.lt_trichotomy y.toNat z.toNat with h2 | h2 | h2
        · simp [Nat.lt_trans h1 h2]
        · have h3 : x.toNat < z.toNat := by omega
          simp [h3]
        · have hny : ¬ y.toNat < z.toNat := by omega
          simp [hny, h2] at hbc
        · have h3 : x.toNat < z.toNat := by omega
          simp [h3]
        · have hnxy : ¬ x.toNat < y.toNat := by omega
          have hnyx : ¬ y.toNat < x.toNat := by omega
          have hnyz : ¬ y.toNat < z.toNat := by omega
          have hnzy : ¬ z.toNat < y.toNat := by omega
          have hnxz : ¬ x.toNat < z.toNat := by omega
          have hnzx : ¬ z.toNat < x.toNat := by omega
          simp only [hnxy, hnyx, if_false, if_neg] at hab
          simp only [hnyz, hnzy, if_false, if_neg] at hbc
          simp only [hnxz, hnzx, if_false, if_neg]
          exact ih ys zs hab hbc
        · have hnyz : ¬ y.toNat < z.toNat := by omega
          simp [hnyz, h2] at hbc
        · have hnxy : ¬ x.toNat < y.toNat := by omega
          simp [hnxy, h1] at hab
        · have hnxy : ¬ x.toNat < y.toNat := by omega
          simp [hnxy, h1] at hab
        · have hnxy : ¬ x.toNat < y.toNat := by omega
          simp [hnxy, h1] at hab

instance : IsTotal Row rowLeP := by
  constructor
  intro a b
  unfold rowLeP rowKeyLe
  by_cases h : a.isDir = b.isDir
  · simpa [h] using charListLe_total (lowerStr a.name).data (lowerStr b.name).data
  · cases ha : a.isDir <;> cases hb : b.isDir <;> simp_all

instance : IsTrans Row rowLeP := by
  constructor
  intro a b c hab hbc
  unfold rowLeP rowKeyLe at *
  cases ha : a.isDir <;> cases hb : b.isDir <;> cases hc : c.isDir <;>
    simp_all <;>
    exact charListLe_trans _ _ _ hab hbc

end ZipUp

namespace ZipUp

/-! ### Invariants of the projection dict (C4) -/

/-- Every row produced by one step of the entry loop satisfies a pointwise
property that holds of the accumulator rows, of every folder row, and of every
file row. -/
theorem addEntryRow_pointwise (cur : String) (acc : List Row) (e : ZEntry)
    (P : Row → Prop)
    (hacc : ∀ r ∈ acc, P r)
    (hfolder : ∀ nm, P ⟨strApp nm "/", "", none, true⟩)
    (hfile : ∀ (nm : String) (n t : Nat), P ⟨nm, toString n, some t, false⟩) :
    ∀ r ∈ addEntryRow cur acc e, P r := by
  intro r hr
  unfold addEntryRow at hr
  split at hr
  · split at hr
    · exact hacc r hr
    · split at hr
      · split at hr
        · exact hacc r hr
        · rcases List.mem_append.mp hr with h | h
          · exact hacc r h
          · rw [List.mem_singleton.mp h]
            exact hfolder _
      · unfold updateAssoc at hr
        split at hr
        · rcases List.mem_map.mp hr with ⟨x, hx, rfl⟩
          split
          · exact hfile _ _ _
          · exact hacc x hx
        · rcases List.mem_append.mp hr with h | h
          · exact hacc r h
          · rw [List.mem_singleton.mp h]
            exact hfile _ _ _
  · exact hacc r hr

/-- Pointwise properties propagate through the whole entry loop. -/
theorem childRows_pointwise (cur : String) (P : Row → Prop)
    (hfolder : ∀ nm, P ⟨strApp nm "/", "", none, true⟩)
    (hfile : ∀ (nm : String) (n t : Nat), P ⟨nm, toString n, some t, false⟩) :
    ∀ (es : List ZEntry) (acc : List Row), (∀ r ∈ acc, P r) →
      ∀ r ∈ es.foldl (addEntryRow cur) acc, P r := by
  intro es
  induction es with
  | nil => intro acc hacc; simpa using hacc
  | cons e es ih =>
    intro acc hacc
    rw [List.foldl_cons]
    exact ih _ (addEntryRow_pointwise cur acc e P hacc hfolder hfile)

/-- Python dict assignment keeps display names distinct. -/
theorem updateAssoc_nodup (rows : List Row) (r : Row)
    (h : (rows.map (fun x => x.name)).Nodup) :
    ((updateAssoc rows r).map (fun x => x.name)).Nodup := by
  unfold updateAssoc
  split
  · rw [List.map_map]
    have heq : rows.map (fun x => ((if x.name == r.name then r else x)).name)
        = rows.map (fun x => x.name) := by
      apply List.map_congr_left
      intro x hx
      by_cases hxe : (x.name == r.name) = true
      · simp only [hxe, if_true]
        exact (eq_of_beq hxe).symm
      · simp [hxe]
    exact heq ▸ h
  · next hany =>
    rw [List.map_append]
    refine List.Nodup.append h (List.nodup_singleton _) ?_
    intro a ha hb
    rw [List.mem_singleton.mp hb] at ha
    rcases List.mem_map.mp ha with ⟨x, hx, hxn⟩
    exact hany (List.any_eq_true.mpr ⟨x, hx, by simp [hxn]⟩)

/-- One step of the entry loop keeps display names distinct. -/
theorem addEntryRow_nodup (cur : String) (acc : List Row) (e : ZEntry)
    (h : (acc.map (fun x => x.name)).Nodup) :
    ((addEntryRow cur acc e).map (fun x => x.name)).Nodup := by
  unfold addEntryRow
  split
  · split
    · exact h
    · split
      · split
        · exact h
        · next hany =>
          rw [List.map_append]
          refine List.Nodup.append h (List.nodup_singleton _) ?_
          intro a ha hb
          rw [List.mem_singleton.mp hb] at ha
          rcases List.mem_map.mp ha with ⟨x, hx, hxn⟩
          exact hany (List.any_eq_true.mpr ⟨x, hx, by simp [hxn]⟩)
      · exact updateAssoc_nodup _ _ h
  · exact h

/-- The entry loop as a whole keeps display names distinct. -/
theorem childRows_names_nodup (cur : String) :
    ∀ (es : List ZEntry) (acc : List Row), (acc.map (fun x => x.name)).Nodup →
      ((es.foldl (addEntryRow cur) acc).map (fun x => x.name)).Nodup := by
  intro es
  induction es with
  | nil => intro acc hacc; simpa using hacc
  | cons e es ih =>
    intro acc hacc
    rw [List.foldl_cons]
    exact ih _ (addEntryRow_nodup cur acc e hacc)

/-- No folder-style display name (something followed by a slash) is the
synthetic up-row name. -/
theorem strApp_slash_ne_dotdot (s : String) : strApp s "/" ≠ ".." := by
  intro h
  have hd : s.data ++ ['/'] = ['.', '.'] := by
    have := congrArg String.data h
    simpa [strApp] using this
  have h2 : (s.data ++ ['/']).getLast? = (['.', '.'] : List Char).getLast? := by
    rw [hd]
  rw [List.getLast?_concat] at h2
  simp at h2

end ZipUp

namespace ZipUp

/-- C4: the directory projection of `update_file_list` (ZIP branch) — on the
spec's example entry set it produces exactly the folder row `a/` and the file
row `e.txt` at the root, and the up-row, folder row `c/` and file row `b.txt`
at `a/`; in general the synthetic `..` row is first exactly when the current
folder is non-empty and never arises otherwise, the remaining rows are sorted
folders-before-files then case-insensitively by display name, and display
names are pairwise distinct (one row per direct child, folder keys
deduplicated). -/
theorem directory_projection_correct :
    (update_file_list_zip ""
        [⟨"a/b.txt", [9, 9, 9], 3⟩, ⟨"a/c/d.txt", [4], 4⟩, ⟨"e.txt", [7], 5⟩]
      = [⟨"a/", "", none, true⟩, ⟨"e.txt", "1", some 5, false⟩])
    ∧ (update_file_list_zip "a/"
        [⟨"a/b.txt", [9, 9, 9], 3⟩, ⟨"a/c/d.txt", [4], 4⟩, ⟨"e.txt", [7], 5⟩]
      = [upRow, ⟨"c/", "", none, true⟩, ⟨"b.txt", "3", some 3, false⟩])
    ∧ (∀ (cur : String) (es : List ZEntry),
        (¬ cur = "" → (update_file_list_zip cur es).head? = some upRow)
        ∧ (cur = "" → upRow ∉ update_file_list_zip cur es))
    ∧ (∀ (cur : String) (es : List ZEntry),
        List.Sorted rowLeP
          ((update_file_list_zip cur es).drop (if cur == "" then 0 else 1)))
    ∧ (∀ (cur : String) (es : List ZEntry),
        (((update_file_list_zip cur es).drop (if cur == "" then 0 else 1)).map
          (fun r => r.name)).Nodup) := by
  refine ⟨by decide, by decide, ?_, ?_, ?_⟩
  · intro cur es
    constructor
    · intro h
      have hb : (cur == "") = false := beq_eq_false_iff_ne.mpr h
      simp [update_file_list_zip, hb]
    · intro h
      subst h
      intro hmem
      simp only [update_file_list_zip] at hmem
      simp at hmem
      have hmem' : upRow ∈ childRows "" es := hmem
      have hP := childRows_pointwise ""
          (fun r => r.isDir = true → ∃ s, r.name = strApp s "/")
          (fun nm => fun _ => ⟨nm, rfl⟩)
          (fun nm n t => by simp)
          es [] (by simp)
      rcases hP upRow hmem' rfl with ⟨s, hs⟩
      exact strApp_slash_ne_dotdot s hs.symm
  · intro cur es
    have hs := List.sorted_insertionSort rowLeP (childRows cur es)
    cases hc : (cur == "")
    · simpa [update_file_list_zip, hc] using hs
    · simpa [update_file_list_zip, hc] using hs
  · intro cur es
    have hnd := childRows_names_nodup cur es [] (by simp)
    have hperm := (List.perm_insertionSort rowLeP (childRows cur es)).map (fun r => r.name)
    have hnd2 : ((List.insertionSort rowLeP (childRows cur es)).map
        (fun r => r.name)).Nodup := hperm.nodup_iff.mpr hnd
    cases hc : (cur == "")
    · simpa [update_file_list_zip, hc] using hnd2
    · simpa [update_file_list_zip, hc] using hnd2

/-- Witness for `directory_projection_correct`: the up-row is first at a
non-empty current folder and absent at the root, on a concrete archive. -/
theorem directory_projection_correct_inst :
    (update_file_list_zip "a/" [⟨"a/b.txt", [1], 2⟩]).head? = some upRow
    ∧ upRow ∉ update_file_list_zip "" [⟨"a/b.txt", [1], 2⟩] :=
  ⟨(directory_projection_correct.2.2.1 "a/" [⟨"a/b.txt", [1], 2⟩]).1 (by decide),
   (directory_projection_correct.2.2.1 "" [⟨"a/b.txt", [1], 2⟩]).2 rfl⟩

end ZipUp
